import Mathlib

set_option maxRecDepth 8000

/-!
Verification of the shadow-drop commitment-tree and nullifier subsystem.

The repository contains two Merkle implementations over the same tree shape
(depth 8, capacity 256):
* a frontend implementation with a local deterministic mixing hash
  (`poseidonHash2`/`poseidonHash3` over `simpleHash`), in namespace `Local`;
* an API-delegated implementation whose Poseidon hash is computed by a remote
  service, in namespace `Delegated`.  The remote call is modelled as an
  oracle `List Nat → Option Nat`; `none` models a failed call
  (network error / non-success status, the source throws an `Error`).

JS `Uint8Array` values are modelled as `List Nat` of byte values; JS strings
of the hex codec as `List Char`.  JS array indexing, which yields `undefined`
out of range, is modelled with `List.get?`.  Fresh randomness
(`crypto.getRandomValues`) is modelled by an explicit oracle `Nat → List Nat`
giving the raw 32-byte draw for each recipient position.
-/

namespace ShadowDrop

/-- Byte arrays (JS `Uint8Array`) as lists of byte values `0..255`. -/
abbrev Bytes := List Nat

/-- Tree depth, fixed to 8 in both source files (`const TREE_DEPTH = 8`). -/
def TREE_DEPTH : Nat := 8

/-- Truncation to an unsigned 32-bit value, as JS `>>> 0` / `DataView.setUint32`. -/
def u32 (n : Nat) : Nat := n % 4294967296

/-- JS `Math.imul`: 32-bit multiplication.  As a bit pattern the result is the
product modulo `2^32` (signedness does not change the bits). -/
def imul (a b : Nat) : Nat := u32 (a * b)

/-- Promise.all over a list of fallible computations: succeeds with the list of
results iff every element succeeds, otherwise the whole batch fails. -/
def optTraverse {α β : Type} (f : α → Option β) : List α → Option (List β)
  | [] => some []
  | a :: l => (f a).bind fun b => (optTraverse f l).map fun r => b :: r

namespace Local

/-- State of the four mixing accumulators `h1..h4` of `simpleHash`. -/
structure MixState where
  h1 : Nat
  h2 : Nat
  h3 : Nat
  h4 : Nat

/-- One iteration of the `simpleHash` byte loop:
`h ^= data[i]; h = Math.imul(h, const)` for each accumulator. -/
def mixStep (s : MixState) (d : Nat) : MixState :=
  { h1 := imul (s.h1 ^^^ d) 0x01000193
    h2 := imul (s.h2 ^^^ d) 0x811c9dc5
    h3 := imul (s.h3 ^^^ d) 0x1b873593
    h4 := imul (s.h4 ^^^ d) 0xcc9e2d51 }

/-- Little-endian 4-byte encoding of a 32-bit value (`DataView.setUint32`
with `littleEndian = true`). -/
def le32 (n : Nat) : Bytes :=
  [n % 256, n / 256 % 256, n / 65536 % 256, n / 16777216 % 256]

/-- The local 32-byte mixing hash `simpleHash`: fold the byte loop over the
input, then lay out `h1, h2, h3, h4, h1^h2, h2^h3, h3^h4, h4^h1` as eight
little-endian 32-bit words. -/
def simpleHash (data : Bytes) : Bytes :=
  let s := data.foldl mixStep ⟨0x811c9dc5, 0x01000193, 0xdeadbeef, 0xcafebabe⟩
  le32 s.h1 ++ le32 s.h2 ++ le32 s.h3 ++ le32 s.h4 ++
    le32 (s.h1 ^^^ s.h2) ++ le32 (s.h2 ^^^ s.h3) ++
    le32 (s.h3 ^^^ s.h4) ++ le32 (s.h4 ^^^ s.h1)

/-- UTF-8 bytes of the domain-separation string of the 2-ary hash. -/
def domainSep2 : Bytes := [112, 111, 115, 101, 105, 100, 111, 110, 50]

/-- UTF-8 bytes of the domain-separation string of the 3-ary hash. -/
def domainSep3 : Bytes := [112, 111, 115, 101, 105, 100, 111, 110, 51]

/-- Local 2-ary hash: `simpleHash` of the domain prefix followed by both
inputs (`combined.set(prefix, 0); combined.set(a, ...); combined.set(b, ...)`). -/
def poseidonHash2 (a b : Bytes) : Bytes := simpleHash (domainSep2 ++ a ++ b)

/-- Local 3-ary hash, analogous to `poseidonHash2`. -/
def poseidonHash3 (a b c : Bytes) : Bytes := simpleHash (domainSep3 ++ a ++ b ++ c)

/-- The all-zero 32-byte value used as a padding leaf (`new Uint8Array(32)`). -/
def zero32 : Bytes := List.replicate 32 0

/-- Little-endian 8-byte encoding of an integer (`DataView.setBigUint64` with
`littleEndian = true`, which wraps modulo `2^64`). -/
def leBytes8 (n : Nat) : Bytes :=
  [n % 256, n / 256 % 256, n / 65536 % 256, n / 16777216 % 256,
   n / 4294967296 % 256, n / 1099511627776 % 256,
   n / 281474976710656 % 256, n / 72057594037927936 % 256]

/-- Decoding of a little-endian byte list back to an integer (used only in
statements, to name the integer a byte encoding stands for). -/
def leDecode (l : Bytes) : Nat := l.foldr (fun b acc => b + 256 * acc) 0

/-- A recipient of the frontend implementation: `wallet` is the UTF-8 byte
sequence of the wallet string (`TextEncoder.encode`), `amount` the token
amount (a JS number; modelled as a natural number, on which the source's
float arithmetic `amount * 1_000_000_000` is exact in the used range),
`secret` an optional pre-assigned 32-byte secret. -/
structure Recipient where
  wallet : Bytes
  amount : Nat
  secret : Option Bytes

/-- Leaf commitment `hash(recipient, amount, secret)`: the amount is scaled to
lamports (`Math.floor(amount * 1_000_000_000)`), encoded as 8 little-endian
bytes, and hashed with the 3-ary hash in the order (wallet, amount, secret). -/
def computeLeafHash (wallet : Bytes) (amount : Nat) (secret : Bytes) : Bytes :=
  poseidonHash3 wallet (leBytes8 (amount * 1000000000)) secret

/-- Nullifier `hash(secret, leaf_index)` with the index as 8 little-endian bytes. -/
def computeNullifier (secret : Bytes) (leafIndex : Nat) : Bytes :=
  poseidonHash2 secret (leBytes8 leafIndex)

/-- Secret assignment `recipients.map(r => ({...r, secret: r.secret || generateSecret()}))`:
each recipient lacking a secret receives the fresh random draw of its position. -/
def assignSecrets (fresh : Nat → Bytes) : Nat → List Recipient → List Recipient
  | _, [] => []
  | i, r :: rs => { r with secret := some (r.secret.getD (fresh i)) } :: assignSecrets fresh (i + 1) rs

/-- One bottom-up level step: hash adjacent pairs
(`for (j = 0; j < currentLevel.length; j += 2) push(poseidonHash2(cl[j], cl[j+1]))`).
On an odd-length level the last iteration reads `currentLevel[j+1] = undefined`
and `poseidonHash2` throws on it; this is modelled as `none`. -/
def hashLevel : List Bytes → Option (List Bytes)
  | [] => some []
  | [_] => none
  | a :: b :: rest => (hashLevel rest).map fun m => poseidonHash2 a b :: m

/-- The level loop of the local build: starting from the leaves, compute `d`
further levels, returning the whole list of levels (`tree` in the source,
whose first element is the leaf level). -/
def levelsIter : Nat → List Bytes → Option (List (List Bytes))
  | 0, cur => some [cur]
  | n + 1, cur => (hashLevel cur).bind fun nxt => (levelsIter n nxt).map fun rest => cur :: rest

/-- Result record `{root, leaves, tree}` of the local build. -/
structure BuildResult where
  root : Bytes
  leaves : List Bytes
  tree : List (List Bytes)

/-- Padding `while (leaves.length < paddedSize) leaves.push(new Uint8Array(32))`:
append zero leaves up to `2^TREE_DEPTH`; a longer list is left unchanged. -/
def padLeaves (leaves : List Bytes) : List Bytes :=
  leaves ++ List.replicate (2 ^ TREE_DEPTH - leaves.length) zero32

/-- The leaf hashes the local build computes after assigning secrets. -/
def leafHashes (fresh : Nat → Bytes) (recipients : List Recipient) : List Bytes :=
  (assignSecrets fresh 0 recipients).map fun r =>
    computeLeafHash r.wallet r.amount (r.secret.getD [])

/-- Remainder of the local build once the leaf hashes are known: pad, build the
levels bottom-up, and package `{root := currentLevel[0], leaves := tree[0], tree}`.
This definition mentions no recipient and no secret. -/
def buildFromLeaves (leaves : List Bytes) : Option BuildResult :=
  (levelsIter TREE_DEPTH (padLeaves leaves)).map fun lvls =>
    { root := (lvls.getLastD []).headD [], leaves := lvls.headD [], tree := lvls }

/-- The local `buildMerkleTree`: assign secrets, compute the leaves, pad to
`2^TREE_DEPTH`, build the tree bottom-up, and return root, leaf level and all
levels.  `fresh` supplies the random draws of `generateSecret()`. -/
def buildMerkleTree (fresh : Nat → Bytes) (recipients : List Recipient) : Option BuildResult :=
  let withSecrets := assignSecrets fresh 0 recipients
  let leaves := withSecrets.map fun r => computeLeafHash r.wallet r.amount (r.secret.getD [])
  (levelsIter TREE_DEPTH (padLeaves leaves)).map fun lvls =>
    { root := (lvls.getLastD []).headD [], leaves := lvls.headD [], tree := lvls }

/-- Proof record of `getMerkleProof`.  JS indexing past the end of a level
yields `undefined`, hence the `Option`s. -/
structure MerkleProof where
  leafIndex : Nat
  siblings : List (Option Bytes)
  leaf : Option Bytes
  deriving DecidableEq

/-- Sibling index `idx % 2 === 0 ? idx + 1 : idx - 1`. -/
def sibIndex (idx : Nat) : Nat := if idx % 2 = 0 then idx + 1 else idx - 1

/-- The sibling-collection loop of `getMerkleProof`: at each of `count` levels
starting from `lvl`, read `tree[lvl][sibIndex idx]` and halve the index. -/
def collectSiblings (tree : List (List Bytes)) : Nat → Nat → Nat → List (Option Bytes)
  | _, _, 0 => []
  | lvl, idx, n + 1 =>
    (tree.getD lvl []).get? (sibIndex idx) :: collectSiblings tree (lvl + 1) (idx / 2) n

/-- `getMerkleProof(tree, leafIndex)`: collect one sibling per level
(`TREE_DEPTH` of them) and return `{leafIndex, siblings, leaf: tree[0][leafIndex]}`.
The source performs no range check on `leafIndex`. -/
def getMerkleProof (tree : List (List Bytes)) (leafIndex : Nat) : MerkleProof :=
  { leafIndex := leafIndex
    siblings := collectSiblings tree 0 leafIndex TREE_DEPTH
    leaf := (tree.getD 0 []).get? leafIndex }

/-- The climbing loop of `verifyMerkleProof`: combine the current value with
each sibling in order, on the left or right according to the parity of the
running index, halving the index each step. -/
def climb : Bytes → Nat → List Bytes → Bytes
  | cur, _, [] => cur
  | cur, idx, s :: rest =>
    climb (if idx % 2 = 1 then poseidonHash2 s cur else poseidonHash2 cur s) (idx / 2) rest

/-- The final comparison loop of `verifyMerkleProof`:
`for (i = 0; i < 32; i++) if (current[i] !== root[i]) return false; return true`.
Out-of-range reads give `undefined` on both sides, and
`undefined !== undefined` is false, hence the comparison of `get?` values. -/
def eqBytes32 (a b : Bytes) : Bool :=
  (List.range 32).all fun i => a.get? i == b.get? i

/-- `verifyMerkleProof(root, leaf, leafIndex, siblings)`: recompute the root by
climbing and compare the first 32 bytes.  It returns a plain boolean and
performs no validation of the sibling count or the index. -/
def verifyMerkleProof (root leaf : Bytes) (leafIndex : Nat) (siblings : List Bytes) : Bool :=
  eqBytes32 (climb leaf leafIndex siblings) root

end Local

/-! Hex codec.  `toHex`/`fromHex` are defined identically in both source files;
they are modelled once.  JS strings are modelled as `List Char`. -/

/-- The sixteen lowercase hex digits, in value order (`Number.toString(16)`). -/
def hexDigits : List Char := String.toList "0123456789abcdef"

/-- The hex digit of a value `0..15`. -/
def hexDigit (n : Nat) : Char := hexDigits.getD n '0'

/-- `b.toString(16).padStart(2, '0')` for a byte `b`: one digit padded with a
leading `'0'`, or two digits. -/
def byteToHex (b : Nat) : List Char :=
  if b < 16 then ['0', hexDigit b] else [hexDigit (b / 16), hexDigit (b % 16)]

/-- `toHex`: concatenate the two-character encodings of all bytes. -/
def toHex (bytes : Bytes) : List Char := (bytes.map byteToHex).flatten

/-- Whether `parseInt` accepts a character as a base-16 digit. -/
def isHexDigitChar (c : Char) : Bool :=
  (48 ≤ c.toNat && c.toNat ≤ 57) || (97 ≤ c.toNat && c.toNat ≤ 102) ||
    (65 ≤ c.toNat && c.toNat ≤ 70)

/-- The value of a base-16 digit character. -/
def hexCharVal (c : Char) : Nat :=
  if 48 ≤ c.toNat && c.toNat ≤ 57 then c.toNat - 48
  else if 97 ≤ c.toNat && c.toNat ≤ 102 then c.toNat - 87
  else if 65 ≤ c.toNat && c.toNat ≤ 70 then c.toNat - 55
  else 0

/-- `parseInt(twoChars, 16)` followed by the `Uint8Array` store: both digits
valid gives the byte value; only the first valid gives that single digit
(`parseInt` stops at the first invalid character); an invalid first character
gives `NaN`, which the typed-array store coerces to `0`. -/
def parseHexPair (c1 c2 : Char) : Nat :=
  if isHexDigitChar c1 then
    if isHexDigitChar c2 then 16 * hexCharVal c1 + hexCharVal c2 else hexCharVal c1
  else 0

/-- `fromHex`: decode `⌊length/2⌋` bytes from consecutive character pairs;
a trailing lone character is dropped. -/
def fromHex : List Char → Bytes
  | c1 :: c2 :: rest => parseHexPair c1 c2 :: fromHex rest
  | _ => []

/-- Membership in the lowercase hex alphabet (the canonical output alphabet). -/
def isLowerHex (c : Char) : Bool := hexDigits.contains c

namespace Delegated

/-- The remote Poseidon service: an ordered list of field elements to one
field element.  `none` models a failed call (`!response.ok`, on which the
source throws).  The wire serialization of each element as a minimal-length
hex string is injective on naturals and is abstracted away. -/
abbrev Oracle := List Nat → Option Nat

/-- Big-endian interpretation of a byte list as an integer:
`BigInt("0x" + Buffer.from(bytes).toString("hex"))`. -/
def beBytes (l : Bytes) : Nat := l.foldl (fun acc b => acc * 256 + b) 0

/-- `bigIntToBytes`: fixed-width 32-byte big-endian encoding of a field
element (the hex string is left-padded to 64 characters). -/
def beBytes32 (n : Nat) : Bytes := (List.range 32).map fun i => n / 256 ^ (31 - i) % 256

/-- The delegated `generateSecret` applied to a raw 32-byte random draw:
`secret[31] &= 0x1f` masks the top 3 bits of the LAST byte. -/
def generateSecret (draw : Bytes) : Bytes := draw.set 31 ((draw.getD 31 0) &&& 0x1f)

/-- A recipient of the delegated implementation: `wallet` is the integer value
of the base58-decoded 32-byte public key (`BigInt` of its hex; the library
decoding is abstracted), `amount` the `bigint` lamport amount. -/
structure Recipient where
  wallet : Nat
  amount : Nat
  secret : Option Bytes

/-- Secret assignment of the delegated build: a recipient lacking a secret
receives `generateSecret()`, i.e. the masked fresh draw of its position. -/
def assignSecrets (fresh : Nat → Bytes) : Nat → List Recipient → List Recipient
  | _, [] => []
  | i, r :: rs =>
    { r with secret := some (r.secret.getD (generateSecret (fresh i))) } :: assignSecrets fresh (i + 1) rs

/-- The field elements the delegated `computeLeafHash` sends to the service:
the full wallet value, the amount unchanged, and the big-endian value of the
secret. -/
def leafQuery (r : Recipient) : List Nat := [r.wallet, r.amount, beBytes (r.secret.getD [])]

/-- The delegated `computeLeafHash`: one remote 3-ary hash call on
(wallet, amount, secret-as-big-endian-integer), result re-encoded as 32 bytes. -/
def computeLeafHash (oracle : Oracle) (wallet amount : Nat) (secret : Bytes) : Option Bytes :=
  (oracle [wallet, amount, beBytes secret]).map beBytes32

/-- The delegated `computeNullifier`: one remote 2-ary hash call on
(secret-as-big-endian-integer, leafIndex). -/
def computeNullifier (oracle : Oracle) (secret : Bytes) (leafIndex : Nat) : Option Bytes :=
  (oracle [beBytes secret, leafIndex]).map beBytes32

/-- The query of the `k`-th leaf-hash call of the delegated build. -/
def leafQueryAt (fresh : Nat → Bytes) (rs : List Recipient) (k : Nat) : List Nat :=
  leafQuery ((assignSecrets fresh 0 rs).getD k ⟨0, 0, none⟩)

/-- Step 2 of the delegated build: compute all leaves concurrently
(`Promise.all`) and convert each leaf back to a `bigint`. -/
def leafStage (oracle : Oracle) (fresh : Nat → Bytes) (recipients : List Recipient) :
    Option (List Nat) :=
  optTraverse (fun r => ((oracle (leafQuery r)).map beBytes32).map beBytes)
    (assignSecrets fresh 0 recipients)

/-- One level of the delegated build: a remote 2-ary hash call per adjacent
pair, batched with `Promise.all`.  An odd-length level reads
`currentLevel[j+1] = undefined` and throws before the call, modelled as `none`. -/
def levelStep (oracle : Oracle) : List Nat → Option (List Nat)
  | [] => some []
  | [_] => none
  | a :: b :: rest => (oracle [a, b]).bind fun v => (levelStep oracle rest).map fun m => v :: m

/-- The level loop of the delegated build: `TREE_DEPTH` successive level steps,
returning the final `currentLevel`. -/
def iterLevels (oracle : Oracle) : Nat → List Nat → Option (List Nat)
  | 0, cur => some cur
  | n + 1, cur => (levelStep oracle cur).bind (iterLevels oracle n)

/-- Result record `{root, leaves}` of the delegated build (the full tree is
not returned). -/
structure BuildResult where
  root : Bytes
  leaves : List Bytes

/-- Padding of step 3: `while (leavesBn.length < paddedSize) leavesBn.push(0n)`. -/
def padLeafValues (leavesBn : List Nat) : List Nat :=
  leavesBn ++ List.replicate (2 ^ TREE_DEPTH - leavesBn.length) 0

/-- Remainder of the delegated build once the leaf values are known: pad,
run the level loop, and package `{root, leaves}`.  Mentions no secret. -/
def buildFromLeafValues (oracle : Oracle) (leavesBn : List Nat) : Option BuildResult :=
  let padded := padLeafValues leavesBn
  (iterLevels oracle TREE_DEPTH padded).map fun finalLevel =>
    { root := beBytes32 (finalLevel.headD 0), leaves := padded.map beBytes32 }

/-- The delegated `buildMerkleTree`: assign secrets, compute all leaves via the
service, pad with zero field elements, run the level loop, and return the
root and the (padded) leaf encodings.  Any failed remote call makes the whole
result `none`. -/
def buildMerkleTree (oracle : Oracle) (fresh : Nat → Bytes) (recipients : List Recipient) :
    Option BuildResult :=
  (leafStage oracle fresh recipients).bind fun leavesBn =>
    let padded := padLeafValues leavesBn
    (iterLevels oracle TREE_DEPTH padded).map fun finalLevel =>
      { root := beBytes32 (finalLevel.headD 0), leaves := padded.map beBytes32 }

end Delegated

/-! Concrete inputs used by witnesses and counterexamples. -/

/-- A constant randomness oracle (every draw is the zero word). -/
def zeroFresh : Nat → Bytes := fun _ => Local.zero32

/-- A concrete local recipient with a pre-assigned secret. -/
def sampleRecipient : Local.Recipient := ⟨[97], 1, some Local.zero32⟩

/-- A concrete delegated recipient with a pre-assigned secret. -/
def sampleRecipientD : Delegated.Recipient := ⟨1, 2, some Local.zero32⟩

/-- A depth-8 tree of all-zero nodes with the correct level lengths. -/
def zeroTree : List (List Bytes) :=
  [List.replicate 256 Local.zero32, List.replicate 128 Local.zero32,
   List.replicate 64 Local.zero32, List.replicate 32 Local.zero32,
   List.replicate 16 Local.zero32, List.replicate 8 Local.zero32,
   List.replicate 4 Local.zero32, List.replicate 2 Local.zero32,
   [Local.zero32]]

/-- A random draw whose first byte is `0xff` and whose other bytes are zero. -/
def badDraw : Bytes := 255 :: List.replicate 31 0

/-- A concrete list of exactly 256 recipients (the capacity). -/
def rs256 : List Local.Recipient := List.replicate 256 sampleRecipient

/-- A concrete list of 257 recipients (capacity + 1). -/
def rs257 : List Local.Recipient := List.replicate 257 sampleRecipient

/-- A concrete list of 512 recipients (double the capacity). -/
def rs512 : List Local.Recipient := List.replicate 512 sampleRecipient

/-- A concrete list of 257 delegated recipients (capacity + 1). -/
def rsD257 : List Delegated.Recipient := List.replicate 257 sampleRecipientD

/-! General list lemmas. -/

/-- In-range JS indexing yields the `getD` value. -/
theorem jsGet_some {α : Type} (l : List α) (n : Nat) (d : α) (h : n < l.length) :
    l.get? n = some (l.getD n d) := by
  induction l generalizing n with
  | nil => simp at h
  | cons a t ih =>
    cases n with
    | zero => rfl
    | succ m => simpa using ih m (by simpa using h)

/-- A batch of fallible computations preserves the length on success. -/
theorem optTraverse_length {α β : Type} (f : α → Option β) :
    ∀ (l : List α) (r : List β), optTraverse f l = some r → r.length = l.length
  | [], r, h => by simp [optTraverse] at h; simp [← h]
  | a :: t, r, h => by
    simp only [optTraverse, Option.bind_eq_some, Option.map_eq_some'] at h
    obtain ⟨b, _, r', hr', rfl⟩ := h
    simp [optTraverse_length f t r' hr']

/-- A batch of fallible computations fails if any single element fails. -/
theorem optTraverse_none_of_mem {α β : Type} (f : α → Option β) :
    ∀ (l : List α) (k : Nat) (a : α), l.get? k = some a → f a = none →
      optTraverse f l = none
  | [], k, a, hk, _ => by simp at hk
  | x :: t, 0, a, hk, ha => by
    rw [List.get?_cons_zero] at hk
    cases hk
    simp [optTraverse, ha]
  | x :: t, k + 1, a, hk, ha => by
    rw [List.get?_cons_succ] at hk
    have ih := optTraverse_none_of_mem f t k a hk ha
    cases hfx : f x <;> simp [optTraverse, ih, hfx]

/-- A batch of fallible computations succeeds if every element succeeds. -/
theorem optTraverse_total {α β : Type} (f : α → Option β) (hf : ∀ a, (f a).isSome) :
    ∀ l : List α, ∃ r, optTraverse f l = some r ∧ r.length = l.length
  | [] => ⟨[], rfl, rfl⟩
  | a :: t => by
    obtain ⟨r, hr, hlen⟩ := optTraverse_total f hf t
    obtain ⟨b, hb⟩ := Option.isSome_iff_exists.mp (hf a)
    exact ⟨b :: r, by simp [optTraverse, hb, hr], by simp [hlen]⟩

/-- The last element of a list is its element at position `length - 1`. -/
theorem getLastD_eq_getD {α : Type} : ∀ (l : List α) (d : α), l.getLastD d = l.getD (l.length - 1) d
  | [], _ => rfl
  | [_], _ => rfl
  | a :: b :: t, d => by
    have ih := getLastD_eq_getD (b :: t) d
    simpa using ih

/-- The head of a list is its element at position `0`. -/
theorem headD_eq_getD {α : Type} (l : List α) (d : α) : l.headD d = l.getD 0 d := by
  cases l <;> rfl

/-! Lemmas about the local hash and level construction. -/

/-- The local hash always produces 32 bytes. -/
theorem simpleHash_length (data : Bytes) : (Local.simpleHash data).length = 32 := by
  simp [Local.simpleHash, Local.le32]

/-- The local 2-ary hash always produces 32 bytes. -/
theorem poseidonHash2_length (a b : Bytes) : (Local.poseidonHash2 a b).length = 32 :=
  simpleHash_length _

/-- Secret assignment does not change the number of recipients. -/
theorem assignSecrets_length (fresh : Nat → Bytes) :
    ∀ (i : Nat) (l : List Local.Recipient), (Local.assignSecrets fresh i l).length = l.length
  | _, [] => rfl
  | i, _ :: t => by simp [Local.assignSecrets, assignSecrets_length fresh (i + 1) t]

/-- Element-wise description of local secret assignment. -/
theorem assignSecrets_get? (fresh : Nat → Bytes) :
    ∀ (i : Nat) (l : List Local.Recipient) (k : Nat),
      (Local.assignSecrets fresh i l).get? k =
        (l.get? k).map fun r => { r with secret := some (r.secret.getD (fresh (i + k))) }
  | _, [], k => by simp [Local.assignSecrets]
  | i, r :: t, 0 => by simp [Local.assignSecrets]
  | i, r :: t, k + 1 => by
    have ih := assignSecrets_get? fresh (i + 1) t k
    simp only [Local.assignSecrets, List.get?_cons_succ, ih]
    have : i + 1 + k = i + (k + 1) := by omega
    rw [this]

/-- Secret assignment does not change the number of recipients (delegated). -/
theorem assignSecretsD_length (fresh : Nat → Bytes) :
    ∀ (i : Nat) (l : List Delegated.Recipient), (Delegated.assignSecrets fresh i l).length = l.length
  | _, [] => rfl
  | i, _ :: t => by simp [Delegated.assignSecrets, assignSecretsD_length fresh (i + 1) t]

/-- Element-wise description of delegated secret assignment: a missing secret
becomes the masked fresh draw of the position. -/
theorem assignSecretsD_get? (fresh : Nat → Bytes) :
    ∀ (i : Nat) (l : List Delegated.Recipient) (k : Nat),
      (Delegated.assignSecrets fresh i l).get? k =
        (l.get? k).map fun r =>
          { r with secret := some (r.secret.getD (Delegated.generateSecret (fresh (i + k)))) }
  | _, [], k => by simp [Delegated.assignSecrets]
  | i, r :: t, 0 => by simp [Delegated.assignSecrets]
  | i, r :: t, k + 1 => by
    have ih := assignSecretsD_get? fresh (i + 1) t k
    simp only [Delegated.assignSecrets, List.get?_cons_succ, ih]
    have : i + 1 + k = i + (k + 1) := by omega
    rw [this]

/-- A level step fails exactly on an odd-length level; this is the failure
direction. -/
theorem hashLevel_none_of_odd :
    ∀ l : List Bytes, l.length % 2 = 1 → Local.hashLevel l = none
  | [], h => by simp at h
  | [_], _ => rfl
  | a :: b :: rest, h => by
    have : rest.length % 2 = 1 := by simp at h; omega
    simp [Local.hashLevel, hashLevel_none_of_odd rest this]

/-- A level step succeeds on an even-length level. -/
theorem hashLevel_some_of_even :
    ∀ l : List Bytes, l.length % 2 = 0 → ∃ m, Local.hashLevel l = some m
  | [], _ => ⟨[], rfl⟩
  | [_], h => by simp at h
  | a :: b :: rest, h => by
    have : rest.length % 2 = 0 := by simp at h; omega
    obtain ⟨m, hm⟩ := hashLevel_some_of_even rest this
    exact ⟨Local.poseidonHash2 a b :: m, by simp [Local.hashLevel, hm]⟩

/-- A successful level step halves the length. -/
theorem hashLevel_some_len :
    ∀ (l m : List Bytes), Local.hashLevel l = some m → l.length = 2 * m.length
  | [], m, h => by
    simp only [Local.hashLevel] at h
    cases h
    rfl
  | [_], m, h => by simp [Local.hashLevel] at h
  | a :: b :: rest, m, h => by
    simp only [Local.hashLevel, Option.map_eq_some'] at h
    obtain ⟨m', hm', rfl⟩ := h
    have := hashLevel_some_len rest m' hm'
    simp only [List.length_cons]
    omega

/-- A successful level step hashes adjacent pairs:
entry `j` of the next level is `hash2` of entries `2j, 2j+1`. -/
theorem hashLevel_some_getD :
    ∀ (l m : List Bytes), Local.hashLevel l = some m → ∀ j, j < m.length →
      m.getD j [] = Local.poseidonHash2 (l.getD (2 * j) []) (l.getD (2 * j + 1) [])
  | [], m, h, j, hj => by
    simp [Local.hashLevel] at h
    subst h; simp at hj
  | [_], m, h, _, _ => by simp [Local.hashLevel] at h
  | a :: b :: rest, m, h, j, hj => by
    simp only [Local.hashLevel, Option.map_eq_some'] at h
    obtain ⟨m', hm', rfl⟩ := h
    cases j with
    | zero => rfl
    | succ j' =>
      have ih := hashLevel_some_getD rest m' hm' j' (by simpa using hj)
      have h1 : 2 * (j' + 1) = 2 * j' + 1 + 1 := by omega
      have h2 : 2 * (j' + 1) + 1 = 2 * j' + 1 + 1 + 1 := by omega
      simp only [List.getD_cons_succ, h1, h2]
      simpa using ih

/-- The level loop succeeds on a leaf count divisible by `2^d` and produces
`d + 1` levels: the first is the input, consecutive levels are related by
`hashLevel`, and level `i` has `length / 2^i` entries. -/
theorem levelsIter_some :
    ∀ (d : Nat) (l : List Bytes), 2 ^ d ∣ l.length →
      ∃ lvls, Local.levelsIter d l = some lvls ∧ lvls.length = d + 1 ∧
        lvls.getD 0 [] = l ∧
        (∀ i, i < d → Local.hashLevel (lvls.getD i []) = some (lvls.getD (i + 1) [])) ∧
        (∀ i, i ≤ d → (lvls.getD i []).length = l.length / 2 ^ i)
  | 0, l, _ => by
    refine ⟨[l], rfl, rfl, rfl, by omega, ?_⟩
    intro i hi
    have : i = 0 := by omega
    subst this
    simp
  | d + 1, l, hdvd => by
    have h2 : (2 : Nat) ∣ l.length := dvd_trans ⟨2 ^ d, by ring⟩ hdvd
    have heven : l.length % 2 = 0 := by obtain ⟨c, hc⟩ := h2; omega
    obtain ⟨m, hm⟩ := hashLevel_some_of_even l heven
    have hlen : l.length = 2 * m.length := hashLevel_some_len l m hm
    have hmd : 2 ^ d ∣ m.length := by
      obtain ⟨k, hk⟩ := hdvd
      refine ⟨k, ?_⟩
      have h2' : 2 * m.length = 2 * (2 ^ d * k) := by
        rw [← hlen, hk, pow_succ]; ring
      exact Nat.eq_of_mul_eq_mul_left (by omega) h2'
    obtain ⟨rest, hrest, hrlen, hr0, hrchain, hrsz⟩ := levelsIter_some d m hmd
    refine ⟨l :: rest, ?_, by simp [hrlen], rfl, ?_, ?_⟩
    · simp [Local.levelsIter, hm, hrest]
    · intro i hi
      cases i with
      | zero =>
        rw [List.getD_cons_zero, List.getD_cons_succ, hr0]
        exact hm
      | succ i' =>
        simp only [List.getD_cons_succ]
        exact hrchain i' (by omega)
    · intro i hi
      cases i with
      | zero => simp
      | succ i' =>
        have hsz := hrsz i' (by omega)
        simp only [List.getD_cons_succ, hsz, hlen, pow_succ]
        rw [show 2 ^ i' * 2 = 2 * 2 ^ i' from by ring]
        exact (Nat.mul_div_mul_left _ _ (by omega)).symm

/-- Climbing with the siblings that `getMerkleProof` collects reconstructs the
corresponding node `d` levels up: over any `hashLevel` chain inside `lvls`
starting at level `base`, an in-range index `idx` yields `d` real (non-absent)
siblings, and the verifier's fold over them starting from the entry at `idx`
equals the entry at `idx / 2^d` of level `base + d`. -/
theorem climb_levels :
    ∀ (d : Nat) (lvls : List (List Bytes)) (base idx : Nat),
      (∀ i, i < d → Local.hashLevel (lvls.getD (base + i) []) = some (lvls.getD (base + i + 1) [])) →
      idx < (lvls.getD base []).length →
      ∃ sibs : List Bytes, Local.collectSiblings lvls base idx d = sibs.map some ∧
        Local.climb ((lvls.getD base []).getD idx []) idx sibs =
          (lvls.getD (base + d) []).getD (idx / 2 ^ d) []
  | 0, lvls, base, idx, _, _ => ⟨[], rfl, by simp [Local.climb]⟩
  | d + 1, lvls, base, idx, hchain, hidx => by
    have h0 := hchain 0 (by omega)
    rw [Nat.add_zero] at h0
    have hlen : (lvls.getD base []).length = 2 * (lvls.getD (base + 1) []).length :=
      hashLevel_some_len _ _ h0
    have hsib : Local.sibIndex idx < (lvls.getD base []).length := by
      unfold Local.sibIndex
      rcases Nat.even_or_odd idx with he | ho
      · have h1 : idx % 2 = 0 := Nat.even_iff.mp he
        rw [if_pos h1]
        omega
      · have h1 : idx % 2 = 1 := Nat.odd_iff.mp ho
        rw [if_neg (by omega)]
        omega
    have hhalf : idx / 2 < (lvls.getD (base + 1) []).length := by omega
    obtain ⟨sibs, hcs, hclimb⟩ := climb_levels d lvls (base + 1) (idx / 2)
      (fun i hi => by
        have hc := hchain (i + 1) (by omega)
        have harith : base + (i + 1) = base + 1 + i := by omega
        rw [harith] at hc
        exact hc) hhalf
    refine ⟨(lvls.getD base []).getD (Local.sibIndex idx) [] :: sibs, ?_, ?_⟩
    · show (lvls.getD base []).get? (Local.sibIndex idx) :: _ = _
      rw [jsGet_some _ _ [] hsib, hcs]
      rfl
    · have hpair := hashLevel_some_getD _ _ h0 (idx / 2) hhalf
      have hnext :
          (if idx % 2 = 1
            then Local.poseidonHash2 ((lvls.getD base []).getD (Local.sibIndex idx) [])
              ((lvls.getD base []).getD idx [])
            else Local.poseidonHash2 ((lvls.getD base []).getD idx [])
              ((lvls.getD base []).getD (Local.sibIndex idx) [])) =
          (lvls.getD (base + 1) []).getD (idx / 2) [] := by
        rcases Nat.even_or_odd idx with he | ho
        · have h1 : idx % 2 = 0 := Nat.even_iff.mp he
          rw [if_neg (by omega)]
          unfold Local.sibIndex
          rw [if_pos h1, hpair]
          have e1 : 2 * (idx / 2) = idx := by omega
          rw [e1]
        · have h1 : idx % 2 = 1 := Nat.odd_iff.mp ho
          rw [if_pos h1]
          unfold Local.sibIndex
          rw [if_neg (by omega), hpair]
          have e1 : 2 * (idx / 2) = idx - 1 := by omega
          rw [e1, show idx - 1 + 1 = idx from by omega]
      show Local.climb _ idx (_ :: sibs) = _
      rw [Local.climb, hnext, hclimb]
      have e3 : base + 1 + d = base + (d + 1) := by omega
      have e4 : idx / 2 / 2 ^ d = idx / 2 ^ (d + 1) := by
        rw [Nat.div_div_eq_div_mul, pow_succ, Nat.mul_comm]
      rw [e3, e4]

/-- A sibling-collection pass over levels whose lookups are all out of range
returns only absent values. -/
theorem collectSiblings_none :
    ∀ (d : Nat) (tree : List (List Bytes)) (base m : Nat),
      (∀ k, k < d → (tree.getD (base + k) []).get? (Local.sibIndex (m / 2 ^ k)) = none) →
      Local.collectSiblings tree base m d = List.replicate d none
  | 0, _, _, _, _ => rfl
  | d + 1, tree, base, m, h => by
    have h0 := h 0 (by omega)
    rw [Nat.add_zero] at h0
    have ht := collectSiblings_none d tree (base + 1) (m / 2) (fun k hk => by
      have hk1 := h (k + 1) (by omega)
      have e1 : base + (k + 1) = base + 1 + k := by omega
      have e2 : m / 2 ^ (k + 1) = m / 2 / 2 ^ k := by
        rw [Nat.div_div_eq_div_mul, pow_succ, Nat.mul_comm]
      rw [e1, e2] at hk1
      exact hk1)
    rw [pow_zero, Nat.div_one] at h0
    show (tree.getD base []).get? (Local.sibIndex m) :: _ = _
    rw [h0, ht]
    rfl

/-- The byte-comparison loop of the verifier agrees with equality on 32-byte
values. -/
theorem eqBytes32_iff (a b : Bytes) (ha : a.length = 32) (hb : b.length = 32) :
    (Local.eqBytes32 a b = true) ↔ a = b := by
  constructor
  · intro h
    have hall : ∀ i ∈ List.range 32, (a.get? i == b.get? i) = true := List.all_eq_true.mp h
    apply List.ext_get?
    intro n
    by_cases hn : n < 32
    · exact beq_iff_eq.mp (hall n (List.mem_range.mpr hn))
    · rw [List.get?_eq_none.mpr (by omega), List.get?_eq_none.mpr (by omega)]
  · intro h
    subst h
    simp [Local.eqBytes32]

/-- The byte-comparison loop accepts equal arrays. -/
theorem eqBytes32_self (a : Bytes) : Local.eqBytes32 a a = true := by
  simp [Local.eqBytes32]

/-- The climbing loop preserves the 32-byte length. -/
theorem climb_length :
    ∀ (sibs : List Bytes) (leaf : Bytes) (idx : Nat), leaf.length = 32 →
      (Local.climb leaf idx sibs).length = 32
  | [], leaf, idx, h => h
  | s :: rest, leaf, idx, h => by
    rw [Local.climb]
    exact climb_length rest _ (idx / 2) (by split <;> exact poseidonHash2_length _ _)

/-- Padding fills a leaf list of at most `2^8` entries to exactly `2^8`. -/
theorem padLeaves_length (l : List Bytes) (h : l.length ≤ 256) :
    (Local.padLeaves l).length = 256 := by
  simp only [Local.padLeaves, TREE_DEPTH, List.length_append, List.length_replicate]
  omega

/-- The local leaf stage produces one leaf per recipient. -/
theorem leafHashes_length (fresh : Nat → Bytes) (rs : List Local.Recipient) :
    (Local.leafHashes fresh rs).length = rs.length := by
  simp [Local.leafHashes, assignSecrets_length]

/-- The local build in terms of its stages. -/
theorem buildMerkleTree_eq (fresh : Nat → Bytes) (rs : List Local.Recipient) :
    Local.buildMerkleTree fresh rs =
      (Local.levelsIter TREE_DEPTH (Local.padLeaves (Local.leafHashes fresh rs))).map
        fun lvls =>
          { root := (lvls.getLastD []).headD [], leaves := lvls.headD [], tree := lvls } := rfl

/-! Lemmas about the delegated level loop. -/

/-- A delegated level step fails on an odd-length level (the last pair reads
`undefined`), regardless of the remote service's answers. -/
theorem levelStepD_none_of_odd (oracle : Delegated.Oracle) :
    ∀ l : List Nat, l.length % 2 = 1 → Delegated.levelStep oracle l = none
  | [], h => by simp at h
  | [_], _ => rfl
  | a :: b :: rest, h => by
    have hr : rest.length % 2 = 1 := by simp at h; omega
    cases hab : oracle [a, b] <;>
      simp [Delegated.levelStep, hab, levelStepD_none_of_odd oracle rest hr]

/-- With a service that answers every call, a delegated level step succeeds on
an even-length level and halves the length. -/
theorem levelStepD_total_even (oracle : Delegated.Oracle) (htot : ∀ q, (oracle q).isSome) :
    ∀ l : List Nat, l.length % 2 = 0 →
      ∃ m, Delegated.levelStep oracle l = some m ∧ m.length = l.length / 2
  | [], _ => ⟨[], rfl, rfl⟩
  | [_], h => by simp at h
  | a :: b :: rest, h => by
    have hr : rest.length % 2 = 0 := by simp at h; omega
    obtain ⟨m, hm, hlen⟩ := levelStepD_total_even oracle htot rest hr
    obtain ⟨v, hv⟩ := Option.isSome_iff_exists.mp (htot [a, b])
    refine ⟨v :: m, by simp [Delegated.levelStep, hv, hm], ?_⟩
    simp [hlen]
    omega

/-- With a service that answers every call, the delegated level loop succeeds
whenever `2^n` divides the width. -/
theorem iterLevelsD_total (oracle : Delegated.Oracle) (htot : ∀ q, (oracle q).isSome) :
    ∀ (n : Nat) (l : List Nat), 2 ^ n ∣ l.length →
      ∃ r, Delegated.iterLevels oracle n l = some r
  | 0, l, _ => ⟨l, rfl⟩
  | n + 1, l, hdvd => by
    have h2 : (2 : Nat) ∣ l.length := dvd_trans ⟨2 ^ n, by ring⟩ hdvd
    have heven : l.length % 2 = 0 := by obtain ⟨c, hc⟩ := h2; omega
    obtain ⟨m, hm, hlen⟩ := levelStepD_total_even oracle htot l heven
    have hmd : 2 ^ n ∣ m.length := by
      obtain ⟨k, hk⟩ := hdvd
      refine ⟨k, ?_⟩
      rw [hlen, hk, pow_succ, show 2 ^ n * 2 * k = 2 * (2 ^ n * k) from by ring,
        Nat.mul_div_cancel_left _ (by omega)]
    obtain ⟨r, hr⟩ := iterLevelsD_total oracle htot n m hmd
    exact ⟨r, by simp [Delegated.iterLevels, hm, hr]⟩

/-- The delegated build in terms of its stages. -/
theorem buildMerkleTreeD_eq (oracle : Delegated.Oracle) (fresh : Nat → Bytes)
    (rs : List Delegated.Recipient) :
    Delegated.buildMerkleTree oracle fresh rs =
      (Delegated.leafStage oracle fresh rs).bind (Delegated.buildFromLeafValues oracle) := rfl

/-- A leaf list already at or above capacity is left unchanged by padding. -/
theorem padLeaves_of_ge (l : List Bytes) (h : 256 ≤ l.length) : Local.padLeaves l = l := by
  unfold Local.padLeaves
  rw [show 2 ^ TREE_DEPTH - l.length = 0 from by simp [TREE_DEPTH]; omega]
  simp

/-- A delegated leaf-value list already at or above capacity is left unchanged
by padding. -/
theorem padLeafValues_of_ge (l : List Nat) (h : 256 ≤ l.length) :
    Delegated.padLeafValues l = l := by
  unfold Delegated.padLeafValues
  rw [show 2 ^ TREE_DEPTH - l.length = 0 from by simp [TREE_DEPTH]; omega]
  simp

/-- The level loop fails immediately if its first level step fails. -/
theorem levelsIter_none_first (n : Nat) (l : List Bytes) (h : Local.hashLevel l = none) :
    Local.levelsIter (n + 1) l = none := by
  simp [Local.levelsIter, h]

/-- The delegated level loop fails immediately if its first level step fails. -/
theorem iterLevelsD_none_first (oracle : Delegated.Oracle) (n : Nat) (l : List Nat)
    (h : Delegated.levelStep oracle l = none) :
    Delegated.iterLevels oracle (n + 1) l = none := by
  simp [Delegated.iterLevels, h]

/-- The local build with exactly 256 recipients succeeds and its leaf level is
exactly the computed leaf hashes — no padding leaf is appended. -/
theorem buildLocal_256 (fresh : Nat → Bytes) (rs : List Local.Recipient)
    (h : rs.length = 256) :
    ∃ out, Local.buildMerkleTree fresh rs = some out ∧
      out.leaves = Local.leafHashes fresh rs ∧ out.leaves.length = 256 := by
  have hll : (Local.leafHashes fresh rs).length = 256 := by rw [leafHashes_length, h]
  have hpad : Local.padLeaves (Local.leafHashes fresh rs) = Local.leafHashes fresh rs :=
    padLeaves_of_ge _ (by omega)
  have hdvd : 2 ^ TREE_DEPTH ∣ (Local.padLeaves (Local.leafHashes fresh rs)).length := by
    rw [hpad, hll]
    exact ⟨1, by norm_num [TREE_DEPTH]⟩
  obtain ⟨lvls, hsome, hlvlen, h0, hchain, hsz⟩ := levelsIter_some TREE_DEPTH _ hdvd
  refine ⟨⟨(lvls.getLastD []).headD [], lvls.headD [], lvls⟩, ?_, ?_, ?_⟩
  · rw [buildMerkleTree_eq, hsome]
    rfl
  · show lvls.headD [] = _
    rw [headD_eq_getD, h0, hpad]
  · show (lvls.headD []).length = 256
    rw [headD_eq_getD, h0, hpad, hll]

/-- The local build with 257 recipients fails with a runtime error: the padded
leaf level has odd length 257, so pairing reads `undefined` and throws. -/
theorem buildLocal_257 (fresh : Nat → Bytes) (rs : List Local.Recipient)
    (h : rs.length = 257) : Local.buildMerkleTree fresh rs = none := by
  have hll : (Local.leafHashes fresh rs).length = 257 := by rw [leafHashes_length, h]
  have hpad : Local.padLeaves (Local.leafHashes fresh rs) = Local.leafHashes fresh rs :=
    padLeaves_of_ge _ (by omega)
  have hodd : Local.hashLevel (Local.padLeaves (Local.leafHashes fresh rs)) = none :=
    hashLevel_none_of_odd _ (by rw [hpad, hll])
  have hnone : Local.levelsIter TREE_DEPTH (Local.padLeaves (Local.leafHashes fresh rs)) = none :=
    levelsIter_none_first 7 _ hodd
  rw [buildMerkleTree_eq, hnone]
  rfl

/-- The local build with 512 recipients silently succeeds, but the returned
tree is malformed: after the fixed 8 halvings its top level still has 2
entries, so the returned root does not summarize all leaves. -/
theorem buildLocal_512 (fresh : Nat → Bytes) (rs : List Local.Recipient)
    (h : rs.length = 512) :
    ∃ out, Local.buildMerkleTree fresh rs = some out ∧
      out.tree.length = 9 ∧ (out.tree.getD 8 []).length = 2 := by
  have hll : (Local.leafHashes fresh rs).length = 512 := by rw [leafHashes_length, h]
  have hpad : Local.padLeaves (Local.leafHashes fresh rs) = Local.leafHashes fresh rs :=
    padLeaves_of_ge _ (by omega)
  have hdvd : 2 ^ TREE_DEPTH ∣ (Local.padLeaves (Local.leafHashes fresh rs)).length := by
    rw [hpad, hll]
    exact ⟨2, by norm_num [TREE_DEPTH]⟩
  obtain ⟨lvls, hsome, hlvlen, h0, hchain, hsz⟩ := levelsIter_some TREE_DEPTH _ hdvd
  refine ⟨⟨(lvls.getLastD []).headD [], lvls.headD [], lvls⟩, ?_, ?_, ?_⟩
  · rw [buildMerkleTree_eq, hsome]
    rfl
  · show lvls.length = 9
    rw [hlvlen]
    rfl
  · show (lvls.getD 8 []).length = 2
    have h8 := hsz 8 (by norm_num [TREE_DEPTH])
    rw [hpad, hll] at h8
    rw [h8]
    norm_num

/-- The delegated build with 257 recipients fails for every service behavior:
either some leaf call fails, or the unpadded odd-width level throws. -/
theorem buildD_257 (oracle : Delegated.Oracle) (fresh : Nat → Bytes)
    (rs : List Delegated.Recipient) (h : rs.length = 257) :
    Delegated.buildMerkleTree oracle fresh rs = none := by
  rw [buildMerkleTreeD_eq]
  cases hls : Delegated.leafStage oracle fresh rs with
  | none => rfl
  | some lv =>
    have hlv : lv.length = 257 := by
      have := optTraverse_length _ _ _ hls
      rw [this, assignSecretsD_length, h]
    have hpad : Delegated.padLeafValues lv = lv := padLeafValues_of_ge _ (by omega)
    have hodd : Delegated.levelStep oracle (Delegated.padLeafValues lv) = none :=
      levelStepD_none_of_odd oracle _ (by rw [hpad, hlv])
    have hiter : Delegated.iterLevels oracle TREE_DEPTH (Delegated.padLeafValues lv) = none :=
      iterLevelsD_none_first oracle 7 _ hodd
    show Delegated.buildFromLeafValues oracle lv = none
    simp [Delegated.buildFromLeafValues, hiter]

/-- The delegated build with exactly 256 recipients succeeds whenever every
remote hash call succeeds. -/
theorem buildD_256 (oracle : Delegated.Oracle) (fresh : Nat → Bytes)
    (rs : List Delegated.Recipient) (htot : ∀ q, (oracle q).isSome)
    (h : rs.length = 256) :
    (Delegated.buildMerkleTree oracle fresh rs).isSome = true := by
  obtain ⟨lv, hlv, hlen⟩ := optTraverse_total
    (fun r => ((oracle (Delegated.leafQuery r)).map Delegated.beBytes32).map Delegated.beBytes)
    (fun r => by
      have hq := htot (Delegated.leafQuery r)
      cases hx : oracle (Delegated.leafQuery r) <;> simp [hx] at hq ⊢)
    (Delegated.assignSecrets fresh 0 rs)
  have hls : Delegated.leafStage oracle fresh rs = some lv := hlv
  have hlv256 : lv.length = 256 := by rw [hlen, assignSecretsD_length, h]
  have hdvd : 2 ^ TREE_DEPTH ∣ (Delegated.padLeafValues lv).length := by
    rw [padLeafValues_of_ge _ (by omega), hlv256]
    exact ⟨1, by norm_num [TREE_DEPTH]⟩
  obtain ⟨r, hr⟩ := iterLevelsD_total oracle htot TREE_DEPTH _ hdvd
  rw [buildMerkleTreeD_eq, hls]
  show (Delegated.buildFromLeafValues oracle lv).isSome = true
  simp [Delegated.buildFromLeafValues, hr]

/-! Claim theorems. -/

/-- C7: every tree returned by the local `buildMerkleTree` for at most 256
recipients has 9 levels, level `i` has `256 / 2^i` entries (so level 0 has
256 and level 8 has 1), entry `j` of level `i+1` is `poseidonHash2` of
entries `2j, 2j+1` of level `i`, and the returned root is `levels[8][0]`. -/
theorem c7_tree_structure (fresh : Nat → Bytes) (rs : List Local.Recipient)
    (hlen : rs.length ≤ 256) :
    ∃ out : Local.BuildResult, Local.buildMerkleTree fresh rs = some out ∧
      out.tree.length = 9 ∧
      (∀ i, i ≤ 8 → (out.tree.getD i []).length = 256 / 2 ^ i) ∧
      (∀ i j, i < 8 → j < 256 / 2 ^ (i + 1) →
        (out.tree.getD (i + 1) []).getD j [] =
          Local.poseidonHash2 ((out.tree.getD i []).getD (2 * j) [])
            ((out.tree.getD i []).getD (2 * j + 1) [])) ∧
      out.root = (out.tree.getD 8 []).getD 0 [] := by
  have hplen : (Local.padLeaves (Local.leafHashes fresh rs)).length = 256 :=
    padLeaves_length _ (by rw [leafHashes_length]; exact hlen)
  have hdvd : 2 ^ TREE_DEPTH ∣ (Local.padLeaves (Local.leafHashes fresh rs)).length := by
    rw [hplen]
    exact ⟨1, by norm_num [TREE_DEPTH]⟩
  obtain ⟨lvls, hsome, hlvlen, h0, hchain, hsz⟩ := levelsIter_some TREE_DEPTH _ hdvd
  refine ⟨⟨(lvls.getLastD []).headD [], lvls.headD [], lvls⟩, ?_, ?_, ?_, ?_, ?_⟩
  · rw [buildMerkleTree_eq, hsome]
    rfl
  · show lvls.length = 9
    rw [hlvlen]
    rfl
  · intro i hi
    show (lvls.getD i []).length = 256 / 2 ^ i
    rw [hsz i (by simpa [TREE_DEPTH] using hi), hplen]
  · intro i j hi hj
    show (lvls.getD (i + 1) []).getD j [] = _
    have hc := hchain i (by simpa [TREE_DEPTH] using hi)
    have hjlen : j < (lvls.getD (i + 1) []).length := by
      rw [hsz (i + 1) (by simp [TREE_DEPTH]; omega), hplen]
      exact hj
    exact hashLevel_some_getD _ _ hc j hjlen
  · show (lvls.getLastD []).headD [] = (lvls.getD 8 []).getD 0 []
    rw [getLastD_eq_getD, hlvlen, headD_eq_getD]
    norm_num [TREE_DEPTH]

/-- Witness for C7 at the empty recipient list. -/
theorem c7_tree_structure_witness : (Local.buildMerkleTree zeroFresh []).isSome = true := by
  obtain ⟨out, hout, -, -, -, -⟩ := c7_tree_structure zeroFresh [] (by decide)
  rw [hout]
  rfl

/-- C1: round-trip proof law for the local implementation.  For every
recipient list of length at most 256 and every index `0 ≤ i < 256`, the build
succeeds, `getMerkleProof` returns a present leaf and 256-bit sibling path,
and `verifyMerkleProof` accepts them against the returned root. -/
theorem c1_round_trip (fresh : Nat → Bytes) (rs : List Local.Recipient) (i : Nat)
    (hlen : rs.length ≤ 256) (hi : i < 256) :
    ∃ (out : Local.BuildResult) (leaf : Bytes) (sibs : List Bytes),
      Local.buildMerkleTree fresh rs = some out ∧
      (Local.getMerkleProof out.tree i).leaf = some leaf ∧
      (Local.getMerkleProof out.tree i).siblings = sibs.map some ∧
      Local.verifyMerkleProof out.root leaf i sibs = true := by
  have hplen : (Local.padLeaves (Local.leafHashes fresh rs)).length = 256 :=
    padLeaves_length _ (by rw [leafHashes_length]; exact hlen)
  have hdvd : 2 ^ TREE_DEPTH ∣ (Local.padLeaves (Local.leafHashes fresh rs)).length := by
    rw [hplen]
    exact ⟨1, by norm_num [TREE_DEPTH]⟩
  obtain ⟨lvls, hsome, hlvlen, h0, hchain, hsz⟩ := levelsIter_some TREE_DEPTH _ hdvd
  have hi0 : i < (lvls.getD 0 []).length := by
    rw [hsz 0 (by omega), hplen]
    simpa using hi
  obtain ⟨sibs, hcs, hclimb⟩ := climb_levels TREE_DEPTH lvls 0 i
    (fun k hk => by simpa using hchain k (by simpa [TREE_DEPTH] using hk)) hi0
  refine ⟨⟨(lvls.getLastD []).headD [], lvls.headD [], lvls⟩,
    (lvls.getD 0 []).getD i [], sibs, ?_, ?_, ?_, ?_⟩
  · rw [buildMerkleTree_eq, hsome]
    rfl
  · show (lvls.getD 0 []).get? i = _
    exact jsGet_some _ _ [] hi0
  · exact hcs
  · show Local.eqBytes32
      (Local.climb ((lvls.getD 0 []).getD i []) i sibs) ((lvls.getLastD []).headD []) = true
    rw [hclimb, getLastD_eq_getD, hlvlen, headD_eq_getD]
    have hz : i / 2 ^ TREE_DEPTH = 0 := Nat.div_eq_of_lt (by simpa [TREE_DEPTH] using hi)
    rw [Nat.zero_add, hz]
    norm_num [TREE_DEPTH]
    exact eqBytes32_self _

/-- Witness for C1 with one recipient and leaf index 0. -/
theorem c1_round_trip_witness : (Local.buildMerkleTree zeroFresh [sampleRecipient]).isSome = true := by
  obtain ⟨out, leaf, sibs, hout, -, -, -⟩ :=
    c1_round_trip zeroFresh [sampleRecipient] 0 (by decide) (by decide)
  rw [hout]
  rfl

/-- C3 (amended): building with exactly 256 recipients succeeds with no
padding leaves added (unconditionally for the local build; for the delegated
build whenever every remote call succeeds).  But neither implementation
checks capacity: no `CapacityExceededError` exists.  With 257 recipients both
builds fail with a generic runtime error when the odd-width level is paired,
and with 512 recipients the local build silently returns a malformed tree
whose 9th level still has 2 nodes. -/
theorem c3_capacity_behavior :
    (∀ (fresh : Nat → Bytes) (rs : List Local.Recipient), rs.length = 256 →
      ∃ out, Local.buildMerkleTree fresh rs = some out ∧
        out.leaves = Local.leafHashes fresh rs ∧ out.leaves.length = 256) ∧
    (∀ (oracle : Delegated.Oracle) (fresh : Nat → Bytes) (rs : List Delegated.Recipient),
      (∀ q, (oracle q).isSome) → rs.length = 256 →
      (Delegated.buildMerkleTree oracle fresh rs).isSome = true) ∧
    (∀ (fresh : Nat → Bytes) (rs : List Local.Recipient), rs.length = 257 →
      Local.buildMerkleTree fresh rs = none) ∧
    (∀ (oracle : Delegated.Oracle) (fresh : Nat → Bytes) (rs : List Delegated.Recipient),
      rs.length = 257 → Delegated.buildMerkleTree oracle fresh rs = none) ∧
    (∀ (fresh : Nat → Bytes) (rs : List Local.Recipient), rs.length = 512 →
      ∃ out, Local.buildMerkleTree fresh rs = some out ∧
        out.tree.length = 9 ∧ (out.tree.getD 8 []).length = 2) :=
  ⟨buildLocal_256, fun oracle fresh rs htot h => buildD_256 oracle fresh rs htot h,
    buildLocal_257, buildD_257, buildLocal_512⟩

/-- Counterexample to C3 as stated: with 512 recipients (more than 256) the
local build does not raise any error — it returns a tree with 9 levels whose
last level has 2 entries instead of 1, i.e. a malformed tree. -/
theorem c3_counterexample :
    (Local.buildMerkleTree zeroFresh rs512).map
      (fun out => (out.tree.length, (out.tree.getD 8 []).length)) = some (9, 2) := by
  obtain ⟨out, hout, h9, h2⟩ := buildLocal_512 zeroFresh rs512 (by simp [rs512])
  rw [hout, Option.map_some', h9, h2]

/-- Witness for C3: the boundary cases at the concrete lists of 256 and 257
recipients. -/
theorem c3_capacity_behavior_witness :
    Local.buildMerkleTree zeroFresh rs257 = none ∧
      (Local.buildMerkleTree zeroFresh rs256).isSome = true := by
  constructor
  · exact c3_capacity_behavior.2.2.1 zeroFresh rs257 (by simp [rs257])
  · obtain ⟨out, hout, -, -⟩ := c3_capacity_behavior.1 zeroFresh rs256 (by simp [rs256])
    rw [hout]
    rfl

/-- C4 (amended): `getMerkleProof` performs no index validation and never
raises.  For an index `≥ 256` against a tree built from at most 256
recipients it returns normally, with an absent (`undefined`) leaf and all 8
siblings absent, instead of raising an `InvalidProofIndexError` (no such
error exists in the code). -/
theorem c4_no_index_validation (fresh : Nat → Bytes) (rs : List Local.Recipient) (i : Nat)
    (hlen : rs.length ≤ 256) (hi : 256 ≤ i) :
    ∃ out, Local.buildMerkleTree fresh rs = some out ∧
      (Local.getMerkleProof out.tree i).leaf = none ∧
      (Local.getMerkleProof out.tree i).siblings = List.replicate 8 none := by
  have hplen : (Local.padLeaves (Local.leafHashes fresh rs)).length = 256 :=
    padLeaves_length _ (by rw [leafHashes_length]; exact hlen)
  have hdvd : 2 ^ TREE_DEPTH ∣ (Local.padLeaves (Local.leafHashes fresh rs)).length := by
    rw [hplen]
    exact ⟨1, by norm_num [TREE_DEPTH]⟩
  obtain ⟨lvls, hsome, hlvlen, h0, hchain, hsz⟩ := levelsIter_some TREE_DEPTH _ hdvd
  have hcount : ∀ k, k < 8 →
      (lvls.getD (0 + k) []).get? (Local.sibIndex (i / 2 ^ k)) = none := by
    intro k hk
    rw [Nat.zero_add]
    have hlenk := hsz k (by simp [TREE_DEPTH]; omega)
    rw [hplen] at hlenk
    apply List.get?_eq_none.mpr
    rw [hlenk]
    have hdivle : 256 / 2 ^ k ≤ i / 2 ^ k := Nat.div_le_div_right hi
    have hpow : (256 : Nat) / 2 ^ k = 2 ^ (8 - k) := by
      rw [show (256 : Nat) = 2 ^ 8 from by norm_num]
      exact Nat.pow_div (by omega) (by omega)
    have h2M : 2 ^ (8 - k) = 2 * 2 ^ (8 - k - 1) := by
      rw [← pow_succ']
      congr 1
      omega
    unfold Local.sibIndex
    rcases Nat.even_or_odd (i / 2 ^ k) with he | ho
    · have h1 : i / 2 ^ k % 2 = 0 := Nat.even_iff.mp he
      rw [if_pos h1]
      omega
    · have h1 : i / 2 ^ k % 2 = 1 := Nat.odd_iff.mp ho
      rw [if_neg (by omega)]
      omega
  refine ⟨⟨(lvls.getLastD []).headD [], lvls.headD [], lvls⟩, ?_, ?_, ?_⟩
  · rw [buildMerkleTree_eq, hsome]
    rfl
  · show (lvls.getD 0 []).get? i = none
    apply List.get?_eq_none.mpr
    rw [hsz 0 (by omega), hplen]
    simpa using hi
  · exact collectSiblings_none 8 lvls 0 i hcount

/-- Counterexample to C4 as stated: on a depth-8 tree of zero nodes,
`getMerkleProof` at the out-of-range index 300 raises nothing — it returns a
proof record whose leaf and all 8 siblings are the absent value. -/
theorem c4_counterexample :
    Local.getMerkleProof zeroTree 300 =
      { leafIndex := 300, siblings := List.replicate 8 none, leaf := none } := by
  rfl

/-- Witness for C4 at the empty recipient list and index 300. -/
theorem c4_no_index_validation_witness :
    (Local.buildMerkleTree zeroFresh []).map
      (fun out => (Local.getMerkleProof out.tree 300).leaf) = some none := by
  obtain ⟨out, hout, hleaf, -⟩ := c4_no_index_validation zeroFresh [] 300 (by decide) (by decide)
  rw [hout, Option.map_some', hleaf]

/-- C5 (amended): `verifyMerkleProof` returns a plain boolean in every case,
with no validation of the sibling count or the index: it returns `true`
exactly when the recomputed climb equals the expected 32-byte root, and in
particular returns `false` — not an exception — on a root mismatch. -/
theorem c5_verify_plain_boolean (root leaf : Bytes) (idx : Nat) (sibs : List Bytes)
    (hroot : root.length = 32) (hleaf : leaf.length = 32) :
    Local.verifyMerkleProof root leaf idx sibs = true ↔ Local.climb leaf idx sibs = root := by
  unfold Local.verifyMerkleProof
  exact eqBytes32_iff _ _ (climb_length sibs leaf idx hleaf) hroot

/-- Counterexample to C5 as stated: an empty sibling list (count ≠ 8 = depth)
does not raise — the verifier happily returns the plain boolean `true` when
the given leaf equals the root. -/
theorem c5_counterexample :
    Local.verifyMerkleProof Local.zero32 Local.zero32 5 [] = true := by decide

/-- Witness for C5 at concrete 32-byte inputs. -/
theorem c5_verify_plain_boolean_witness :
    (Local.verifyMerkleProof Local.zero32 (List.replicate 32 1) 0 [] = true ↔
      Local.climb (List.replicate 32 1) 0 [] = Local.zero32) :=
  c5_verify_plain_boolean Local.zero32 (List.replicate 32 1) 0 []
    (by simp [Local.zero32]) (by simp)

/-- C6: a single failed delegated hash call aborts the entire delegated build
with an error: if the `k`-th leaf call fails, or the leaf stage succeeds and a
call of the first level step fails, `buildMerkleTree` returns `none` — no
partial tree is returned and no default value is substituted. -/
theorem c6_failure_aborts (oracle : Delegated.Oracle) (fresh : Nat → Bytes)
    (rs : List Delegated.Recipient) :
    (∀ k, k < rs.length → oracle (Delegated.leafQueryAt fresh rs k) = none →
      Delegated.buildMerkleTree oracle fresh rs = none) ∧
    (∀ lv, Delegated.leafStage oracle fresh rs = some lv →
      Delegated.levelStep oracle (Delegated.padLeafValues lv) = none →
      Delegated.buildMerkleTree oracle fresh rs = none) := by
  constructor
  · intro k hk hfail
    have hk2 : k < (Delegated.assignSecrets fresh 0 rs).length := by
      rw [assignSecretsD_length]
      exact hk
    have hget := jsGet_some (Delegated.assignSecrets fresh 0 rs) k
      (⟨0, 0, none⟩ : Delegated.Recipient) hk2
    have hnone := optTraverse_none_of_mem
      (fun r => ((oracle (Delegated.leafQuery r)).map Delegated.beBytes32).map Delegated.beBytes)
      (Delegated.assignSecrets fresh 0 rs) k _ hget
      (by
        have hq : oracle (Delegated.leafQuery
            ((Delegated.assignSecrets fresh 0 rs).getD k ⟨0, 0, none⟩)) = none := hfail
        simp only [hq, Option.map_none'])
    have hls : Delegated.leafStage oracle fresh rs = none := hnone
    rw [buildMerkleTreeD_eq, hls]
    rfl
  · intro lv hls hstep
    rw [buildMerkleTreeD_eq, hls]
    show Delegated.buildFromLeafValues oracle lv = none
    have hiter : Delegated.iterLevels oracle TREE_DEPTH (Delegated.padLeafValues lv) = none :=
      iterLevelsD_none_first oracle 7 _ hstep
    simp [Delegated.buildFromLeafValues, hiter]

/-- Witness for C6: a service that fails every call makes the one-recipient
build fail. -/
theorem c6_failure_aborts_witness :
    Delegated.buildMerkleTree (fun _ => none) zeroFresh [sampleRecipientD] = none :=
  (c6_failure_aborts (fun _ => none) zeroFresh [sampleRecipientD]).1 0 (by decide) rfl

/-! Hex codec lemmas. -/

/-- Every value below 16 encodes to a hex digit that decodes back to it, is a
valid `parseInt` digit, and is lowercase. -/
theorem hexDigit_facts : ∀ b < 16, hexCharVal (hexDigit b) = b ∧
    isHexDigitChar (hexDigit b) = true ∧ isLowerHex (hexDigit b) = true := by decide

/-- A byte always encodes to exactly two characters. -/
theorem byteToHex_length (b : Nat) : (byteToHex b).length = 2 := by
  unfold byteToHex
  split <;> rfl

/-- The two-character encoding of a byte uses only the lowercase alphabet. -/
theorem byteToHex_lower : ∀ b < 256, ∀ c ∈ byteToHex b, isLowerHex c = true := by decide

/-- Re-encoding the decoded value of two lowercase hex digits restores them. -/
theorem byteToHex_parseHexPair :
    ∀ c1 ∈ hexDigits, ∀ c2 ∈ hexDigits, byteToHex (parseHexPair c1 c2) = [c1, c2] := by decide

/-- A lowercase hex character is one of the sixteen digits. -/
theorem mem_of_isLowerHex {c : Char} (h : isLowerHex c = true) : c ∈ hexDigits := by
  unfold isLowerHex at h
  exact List.elem_iff.mp h

/-- Encoding produces two characters per byte. -/
theorem toHex_length : ∀ x : Bytes, (toHex x).length = 2 * x.length
  | [] => rfl
  | b :: t => by
    have ih := toHex_length t
    show ((b :: t).map byteToHex).flatten.length = _
    rw [List.map_cons, List.flatten_cons, List.length_append, byteToHex_length,
      show (t.map byteToHex).flatten = toHex t from rfl, ih, List.length_cons]
    omega

/-- Encoding a byte list uses only the lowercase alphabet. -/
theorem toHex_lower : ∀ x : Bytes, (∀ b ∈ x, b < 256) → ∀ c ∈ toHex x, isLowerHex c = true
  | [], _, c, hc => by simp [toHex] at hc
  | b :: t, h, c, hc => by
    rw [show toHex (b :: t) = byteToHex b ++ toHex t from rfl] at hc
    rcases List.mem_append.mp hc with h1 | h2
    · exact byteToHex_lower b (h b (by simp)) c h1
    · exact toHex_lower t (fun a ha => h a (by simp [ha])) c h2

/-- Decoding inverts encoding on byte lists. -/
theorem fromHex_toHex : ∀ x : Bytes, (∀ b ∈ x, b < 256) → fromHex (toHex x) = x
  | [], _ => rfl
  | b :: t, h => by
    have hb : b < 256 := h b (by simp)
    have ih := fromHex_toHex t (fun c hc => h c (by simp [hc]))
    rw [show toHex (b :: t) = byteToHex b ++ toHex t from rfl]
    by_cases hlt : b < 16
    · obtain ⟨hv, hd, -⟩ := hexDigit_facts b (by omega)
      rw [show byteToHex b = ['0', hexDigit b] from by unfold byteToHex; rw [if_pos hlt]]
      show parseHexPair '0' (hexDigit b) :: fromHex (toHex t) = b :: t
      rw [ih]
      congr 1
      unfold parseHexPair
      rw [if_pos (show isHexDigitChar '0' = true from rfl), if_pos hd, hv,
        show hexCharVal '0' = 0 from rfl]
      omega
    · obtain ⟨hv1, hd1, -⟩ := hexDigit_facts (b / 16) (by omega)
      obtain ⟨hv2, hd2, -⟩ := hexDigit_facts (b % 16) (by omega)
      rw [show byteToHex b = [hexDigit (b / 16), hexDigit (b % 16)] from by
        unfold byteToHex; rw [if_neg hlt]]
      show parseHexPair (hexDigit (b / 16)) (hexDigit (b % 16)) :: fromHex (toHex t) = b :: t
      rw [ih]
      congr 1
      unfold parseHexPair
      rw [if_pos hd1, if_pos hd2, hv1, hv2]
      omega

/-- Encoding inverts decoding on canonical lowercase even-length strings. -/
theorem toHex_fromHex : ∀ s : List Char, s.length % 2 = 0 →
    (∀ c ∈ s, isLowerHex c = true) → toHex (fromHex s) = s
  | [], _, _ => rfl
  | [c], h, _ => by simp at h
  | c1 :: c2 :: rest, h, hc => by
    have h1 := mem_of_isLowerHex (hc c1 (by simp))
    have h2 := mem_of_isLowerHex (hc c2 (by simp))
    have hr : rest.length % 2 = 0 := by simp at h; omega
    have ih := toHex_fromHex rest hr (fun c hm => hc c (by simp [hm]))
    show toHex (parseHexPair c1 c2 :: fromHex rest) = _
    rw [show toHex (parseHexPair c1 c2 :: fromHex rest) =
      byteToHex (parseHexPair c1 c2) ++ toHex (fromHex rest) from rfl, ih,
      byteToHex_parseHexPair c1 h1 c2 h2]
    rfl

/-- C8: the hex codec round-trips exactly.  For every byte list,
`fromHex (toHex x) = x`, the encoding has two lowercase hex characters per
byte and no prefix; and for every canonical lowercase even-length string,
`toHex (fromHex s) = s`. -/
theorem c8_hex_round_trip :
    (∀ x : Bytes, (∀ b ∈ x, b < 256) →
      fromHex (toHex x) = x ∧ (toHex x).length = 2 * x.length ∧
        ∀ c ∈ toHex x, isLowerHex c = true) ∧
    (∀ s : List Char, s.length % 2 = 0 → (∀ c ∈ s, isLowerHex c = true) →
      toHex (fromHex s) = s) :=
  ⟨fun x hx => ⟨fromHex_toHex x hx, toHex_length x, toHex_lower x hx⟩,
    toHex_fromHex⟩

/-- Witness for C8 at concrete byte and string inputs. -/
theorem c8_hex_round_trip_witness :
    fromHex (toHex [0, 171, 255]) = [0, 171, 255] ∧
      toHex (fromHex ['a', '0']) = ['a', '0'] :=
  ⟨(c8_hex_round_trip.1 [0, 171, 255] (by decide)).1,
    c8_hex_round_trip.2 ['a', '0'] (by decide) (by decide)⟩

/-- C9: neither build mutates or returns the secrets it generates.  Both
builds factor through their leaf-hash stage: the returned `{root, leaves,
tree}` (local) and `{root, leaves}` (delegated) records are computed from the
leaf hashes alone, and a recipient lacking a secret is paired internally with
the fresh draw of its position (the delegated build masks it first); the
input recipient list itself is read only element-wise and never altered. -/
theorem c9_output_without_secrets (fresh freshD : Nat → Bytes) (rs : List Local.Recipient)
    (oracle : Delegated.Oracle) (rsD : List Delegated.Recipient) :
    Local.buildMerkleTree fresh rs = Local.buildFromLeaves (Local.leafHashes fresh rs) ∧
    (∀ k, (Local.assignSecrets fresh 0 rs).get? k =
      (rs.get? k).map fun r => { r with secret := some (r.secret.getD (fresh k)) }) ∧
    Delegated.buildMerkleTree oracle freshD rsD =
      (Delegated.leafStage oracle freshD rsD).bind (Delegated.buildFromLeafValues oracle) ∧
    (∀ k, (Delegated.assignSecrets freshD 0 rsD).get? k =
      (rsD.get? k).map fun r =>
        { r with secret := some (r.secret.getD (Delegated.generateSecret (freshD k))) }) := by
  refine ⟨rfl, ?_, rfl, ?_⟩
  · intro k
    simpa using assignSecrets_get? fresh 0 rs k
  · intro k
    simpa using assignSecretsD_get? freshD 0 rsD k

/-- The little-endian 8-byte encoding decodes to its value below `2^64`. -/
theorem leDecode_leBytes8 (n : Nat) (h : n < 18446744073709551616) :
    Local.leDecode (Local.leBytes8 n) = n := by
  unfold Local.leDecode Local.leBytes8
  simp only [List.foldr]
  omega

/-- C10: the two leaf committers feed different amount values to their hashes.
The local one hashes `amount * 10^9` as 8 little-endian bytes; the delegated
one sends the given amount unchanged; for every positive amount (`< 2^34`, so
the scaling stays below `2^64`) the two values differ. -/
theorem c10_amount_divergence (w : Bytes) (wD : Nat) (s sD : Bytes)
    (oracle : Delegated.Oracle) (a : Nat) (ha : 0 < a) (hb : a < 2 ^ 34) :
    Local.computeLeafHash w a s =
      Local.poseidonHash3 w (Local.leBytes8 (a * 1000000000)) s ∧
    Delegated.computeLeafHash oracle wD a sD =
      (oracle [wD, a, Delegated.beBytes sD]).map Delegated.beBytes32 ∧
    Local.leDecode (Local.leBytes8 (a * 1000000000)) = a * 1000000000 ∧
    a * 1000000000 ≠ a := by
  refine ⟨rfl, rfl, leDecode_leBytes8 _ (by omega), by omega⟩

/-- Witness for C10 at amount 1: the local build hashes the bytes of
`10^9` while the delegated build sends `1`. -/
theorem c10_amount_divergence_witness :
    Local.computeLeafHash [] 1 Local.zero32 =
      Local.poseidonHash3 [] (Local.leBytes8 (1 * 1000000000)) Local.zero32 ∧
    Delegated.computeLeafHash (fun _ => none) 0 1 Local.zero32 =
      ((fun _ => none : Delegated.Oracle) [0, 1, Delegated.beBytes Local.zero32]).map
        Delegated.beBytes32 ∧
    Local.leDecode (Local.leBytes8 (1 * 1000000000)) = 1 * 1000000000 ∧
    1 * 1000000000 ≠ 1 :=
  c10_amount_divergence [] 0 Local.zero32 Local.zero32 (fun _ => none) 1 (by decide)
    (by norm_num)

/-- C2 (code bug): the delegated `generateSecret` masks `secret[31] &= 0x1f`,
but `computeLeafHash`/`computeNullifier` decode the secret big-endian, where
byte 31 is the LEAST significant byte.  For the draw `ff 00 ... 00` the
masked secret still decodes to `255 * 2^248 ≥ 2^253`, and that oversized
value is exactly what is sent to the remote hash — contradicting both the
claim and the code's own comment that the mask keeps values within ~253 bits. -/
theorem c2_mask_not_field_bound :
    Delegated.beBytes (Delegated.generateSecret badDraw) = 255 * 2 ^ 248 ∧
    2 ^ 253 ≤ Delegated.beBytes (Delegated.generateSecret badDraw) ∧
    ∀ (oracle : Delegated.Oracle) (idx : Nat),
      Delegated.computeNullifier oracle (Delegated.generateSecret badDraw) idx =
        (oracle [255 * 2 ^ 248, idx]).map Delegated.beBytes32 := by
  have h1 : Delegated.beBytes (Delegated.generateSecret badDraw) = 255 * 2 ^ 248 := by decide
  refine ⟨h1, by rw [h1]; norm_num, ?_⟩
  intro oracle idx
  unfold Delegated.computeNullifier
  rw [h1]

end ShadowDrop

